import Mathlib

/-!
Verification of the Intempus case-mirroring service.

The local SQLite table of cases is modelled as a list of rows kept in
ascending primary-key order (the order in which `SELECT ... ORDER BY id`
returns them).  The reconciliation routine
`DBClient.synchronize_with_intempus` (`src/db/db_client.py`) is embedded as a
pure function over this representation; the page iterator is given as the
list of pages it yields.  The HTTP-facing pieces (`IntempusClient._request`,
`IntempusClient.get_cases`, the `DELETE /case/{id}` route) are embedded as
functions of the outcome of the underlying HTTP request.
-/

namespace Intempus

/-- Local database row (`src/db/model.py`, class `Case`): primary key `id`,
version `logical_timestamp`, JSON payload `blob`.  Identifiers are
non-negative (the remote system assigns them monotonically and the pass
starts its scans from 0), so `id` is a `Nat`. -/
structure Case where
  id : Nat
  logical_timestamp : Int
  blob : String
deriving DecidableEq

/-- Remote case as delivered by the Intempus API (`src/shared/dto.py`,
`CaseResponseDTO`).  We keep the two fields the synchronizer reads (`id`,
`logical_timestamp`, taken as present since the synchronizer compares and
stores it as an `int`) and carry the record's JSON serialization
(`model_dump_json()`), a deterministic function of the full DTO, as the
`dump` field. -/
structure CaseResponseDTO where
  id : Nat
  logical_timestamp : Int
  dump : String
deriving DecidableEq

/-- Serialization `model_dump_json()` of a remote DTO (carried as data). -/
def model_dump_json (r : CaseResponseDTO) : String := r.dump

/-- Pagination metadata (`src/shared/dto.py`, class `Meta`). -/
structure Meta where
  limit : Nat
  next : Option String
  offset : Option Nat
  previous : Option String
  total_count : Nat
deriving DecidableEq

/-- One page of the paginated case listing (`src/shared/dto.py`,
`CaseQueryResponseDTO`). -/
structure CaseQueryResponseDTO where
  meta : Meta
  objects : List CaseResponseDTO
deriving DecidableEq

/-- Identifiers of the rows of a table. -/
abbrev idsOf (store : List Case) : List Nat := store.map Case.id

/-- Primary-key lookup, `session.get(Case, i)`: the row with id `i`. -/
def getCase : List Case → Nat → Option Case
  | [], _ => none
  | c :: cs, i => if c.id = i then some c else getCase cs i

/-- Lookup of a remote record by id in a list of remote records. -/
def findRemote : List CaseResponseDTO → Nat → Option CaseResponseDTO
  | [], _ => none
  | r :: rs, i => if r.id = i then some r else findRemote rs i

/-- Session `add` of a new row into the primary-key table: the row lands at
its key position.  A duplicate key replaces the old row here; in the verified
runs duplicate-key adds never occur (SQLite would reject them at flush). -/
def addCase : List Case → Case → List Case
  | [], c => [c]
  | x :: xs, c =>
    if c.id < x.id then c :: x :: xs
    else if c.id = x.id then c :: xs
    else x :: addCase xs c

/-- Session `delete` of the row with primary key `i`. -/
def removeCase (store : List Case) (i : Nat) : List Case :=
  store.filter (fun c => c.id ≠ i)

/-- In-place mutation of the row with primary key `i`
(assignments `local_case.logical_timestamp = ...; local_case.blob = ...`,
`src/db/db_client.py:128-129`). -/
def updateCase (store : List Case) (i : Nat) (lt : Int) (b : String) : List Case :=
  store.map (fun c =>
    if c.id = i then { c with logical_timestamp := lt, blob := b } else c)

/-- Row built from a remote record,
`Case(id=remote.id, logical_timestamp=remote.logical_timestamp, blob=remote.model_dump_json())`. -/
def caseOfRemote (r : CaseResponseDTO) : Case :=
  { id := r.id, logical_timestamp := r.logical_timestamp, blob := model_dump_json r }

/-- Inner `while` loop of `DBClient.synchronize_with_intempus`
(`src/db/db_client.py:124-158`): two-pointer merge of one page's remote
records against the open local cursor.  Returns the session's table after the
loop together with the unconsumed part of the local cursor (the pending
`local_case` pushed back in front of the rest of `local_iter`).  The loop
only exits with the page's remote records fully consumed (`remote_case is
None`), either normally or through the `break` on a surviving local row. -/
def walk : List Case → List CaseResponseDTO → List Case → List Case × List Case
  | store, [], locs => (store, locs)
  | store, r :: rs, [] => walk (addCase store (caseOfRemote r)) rs []
  | store, r :: rs, l :: ls =>
    if r.id = l.id then
      walk (if r.logical_timestamp > l.logical_timestamp
            then updateCase store l.id r.logical_timestamp (model_dump_json r)
            else store) rs ls
    else if r.id < l.id then
      walk (addCase store (caseOfRemote r)) rs (l :: ls)
    else
      walk (removeCase store l.id) (r :: rs) ls
termination_by _ rs locs => rs.length + locs.length
decreasing_by all_goals simp_arith

/-- State threaded through the page loop of `synchronize_with_intempus`:
the session's table, the local cursor (`none` until it is opened, then the
unconsumed rows), and the watermark `min_local_id`. -/
structure SyncState where
  store : List Case
  local_rem : Option (List Case)
  min_local_id : Nat
deriving DecidableEq

/-- Local scan `select(Case).where(Case.id >= m).order_by(Case.id)`
(`src/db/db_client.py:120`). -/
def scanFrom (store : List Case) (m : Nat) : List Case :=
  store.filter (fun c => m ≤ c.id)

/-- Computation `max(obj.id for obj in page.objects)`
(`src/db/db_client.py:161`, only reached with `page.objects` nonempty). -/
def maxPageId (objs : List CaseResponseDTO) : Nat :=
  objs.foldl (fun a o => Nat.max a o.id) 0

/-- One iteration of the `for page in intempus_cases` loop body
(`src/db/db_client.py:115-162`): open the local cursor if it is not open yet,
run the merge loop, then the watermark update.  At the watermark check the
code tests `remote_case is None and page.objects`; the merge loop only exits
with the page consumed, so the test reduces to `page.objects` being nonempty.
The page-level `session.commit()` (line 164) is modelled in
`processPageCommit`. -/
def processPage (st : SyncState) (p : CaseQueryResponseDTO) : SyncState :=
  let locs := match st.local_rem with
    | none => scanFrom st.store st.min_local_id
    | some c => c
  let w := walk st.store p.objects locs
  let m' := if p.objects.isEmpty then st.min_local_id
            else Nat.max st.min_local_id (maxPageId p.objects + 1)
  ⟨w.1, some w.2, m'⟩

/-- State at the top of `synchronize_with_intempus`
(`src/db/db_client.py:111-113`). -/
def initSync (store : List Case) : SyncState := ⟨store, none, 0⟩

/-- Trailing cleanup of `synchronize_with_intempus`
(`src/db/db_client.py:166-170`): delete the unconsumed remainder of the local
cursor (the pending `local_case` and everything `local_iter` still holds) and
commit. -/
def finalizeSync (st : SyncState) : List Case :=
  match st.local_rem with
  | some (l :: ls) => (l :: ls).foldl (fun s c => removeCase s c.id) st.store
  | _ => st.store

/-- Function `DBClient.synchronize_with_intempus` (`src/db/db_client.py:87-170`)
with the page iterator given as the list of pages it yields: the final
committed table. -/
def synchronize_with_intempus (store : List Case) (pages : List CaseQueryResponseDTO) :
    List Case :=
  finalizeSync (pages.foldl processPage (initSync store))

/-- Page body followed by the page-level `session.commit()`
(`src/db/db_client.py:164`); the second component is the durable (committed)
table after the commit. -/
def processPageCommit (p : SyncState × List Case) (page : CaseQueryResponseDTO) :
    SyncState × List Case :=
  let st := processPage p.1 page
  (st, st.store)

/-- Run of `synchronize_with_intempus` against a page iterator that yields
`pages` and then either raises (`iterRaises = true`) or reports exhaustion.
`Except.error s` models the iterator's exception propagating out of the call
with `s` the committed table at that moment (the cleanup of lines 166-170
does not run); `Except.ok s` is the committed table of a normal return. -/
def synchronize_run (store : List Case) (pages : List CaseQueryResponseDTO)
    (iterRaises : Bool) : Except (List Case) (List Case) :=
  let p := pages.foldl processPageCommit (initSync store, store)
  if iterRaises then Except.error p.2
  else Except.ok (finalizeSync p.1)

/-- Function `DBClient.delete_case` (`src/db/db_client.py:68-85`): the `bool`
result and the table after the call (committed whenever a row was deleted). -/
def delete_case (store : List Case) (i : Nat) : Bool × List Case :=
  match getCase store i with
  | some _ => (true, removeCase store i)
  | none => (false, store)

/-- Error message item (`src/shared/error.py`, `ErrorMessageItem`). -/
structure ErrorMessageItem where
  message : String
deriving DecidableEq

/-- Structured error value (`src/shared/error.py`, `ErrorDetail`). -/
structure ErrorDetail where
  title : String
  status_code : Nat
  detail : String
  version : String
  error_messages : List ErrorMessageItem
deriving DecidableEq

/-- Outcome of the underlying `httpx` request issued by
`IntempusClient._request`: a successful response with parsed body,
an HTTP status error (`raise_for_status` on a 4xx/5xx), or a network error. -/
inductive HttpOutcome (α : Type) where
  | success (body : α)
  | statusError (status : Nat) (text : String)
  | networkError (msg : String)
deriving DecidableEq

/-- Status-to-title mapping in the `HTTPStatusError` handler of
`IntempusClient._request` (`src/shared/intempus_client.py:59-68`). -/
def titleForStatus (status : Nat) : String :=
  if status = 400 then "Bad Request"
  else if status = 401 then "Unauthorized"
  else if status = 403 then "Forbidden"
  else if status = 404 then "Not Found"
  else "HTTP " ++ toString status

/-- Method `IntempusClient._request` (`src/shared/intempus_client.py:31-86`):
the response body on success, otherwise a structured `ErrorDetail`; the
`httpx` exceptions are caught and never escape. -/
def request {α : Type} (outcome : HttpOutcome α) : α ⊕ ErrorDetail :=
  match outcome with
  | .success body => Sum.inl body
  | .statusError status text =>
      Sum.inr { title := titleForStatus status, status_code := status,
                detail := "Upstream API returned status " ++ toString status,
                version := "1.0.0",
                error_messages := [{ message := text }] }
  | .networkError msg =>
      Sum.inr { title := "Network Error", status_code := 503,
                detail := msg, version := "1.0.0",
                error_messages := [{ message := "Could not reach upstream API" }] }

/-- Behavior of one loop iteration of `IntempusClient.get_cases`
(`src/shared/intempus_client.py:102-115`) toward its consumer: the page is
yielded, or a `RuntimeError` is raised.  The `raised` constructor carries the
`ErrorDetail` that the raised message interpolates
(`RuntimeError(f"API returned error: ...")`). -/
inductive GetCasesStep where
  | yielded (page : CaseQueryResponseDTO)
  | raised (e : ErrorDetail)
deriving DecidableEq

/-- What one fetch in `IntempusClient.get_cases` does with the outcome of its
HTTP request (`src/shared/intempus_client.py:104-110`). -/
def get_cases_step (outcome : HttpOutcome CaseQueryResponseDTO) : GetCasesStep :=
  match request outcome with
  | Sum.inr e => GetCasesStep.raised e
  | Sum.inl page => GetCasesStep.yielded page

/-- Detail dictionary built by `raise_http_exception_from_error`
(`src/api/routes.py:67-73`). -/
structure HTTPExceptionDetail where
  title : String
  detail : String
  version : String
  error_messages : List String
deriving DecidableEq

/-- FastAPI `HTTPException` as raised by the routes. -/
structure HTTPException where
  status_code : Nat
  detail : HTTPExceptionDetail
deriving DecidableEq

/-- Function `raise_http_exception_from_error` (`src/api/routes.py:53-75`):
the `HTTPException` it raises. -/
def raise_http_exception_from_error (status_code : Nat) (e : ErrorDetail) :
    HTTPException :=
  { status_code := status_code,
    detail := { title := e.title, detail := e.detail, version := e.version,
                error_messages := e.error_messages.map ErrorMessageItem.message } }

/-- Method `IntempusClient.delete_case` (`src/shared/intempus_client.py:156-172`):
`None` on success, otherwise the `ErrorDetail`. -/
def client_delete_case (outcome : HttpOutcome Unit) : Option ErrorDetail :=
  match request outcome with
  | Sum.inr e => some e
  | Sum.inl _ => none

/-- Route handler for `DELETE /case/{id}` (`src/api/routes.py:149-184`), as a
function of the outcome of the remote delete request: the local table after
the handler, and the raised `HTTPException` if any. -/
def route_delete (outcome : HttpOutcome Unit) (store : List Case) (i : Nat) :
    List Case × Option HTTPException :=
  match client_delete_case outcome with
  | some e =>
      if e.status_code = 404 then ((delete_case store i).2, none)
      else (store, some (raise_http_exception_from_error e.status_code e))
  | none => ((delete_case store i).2, none)

/-- Table rows in strictly ascending primary-key order: the representation
invariant of the primary-key table. -/
abbrev SortedById (store : List Case) : Prop :=
  store.Pairwise (fun a b => a.id < b.id)

/-- Remote records in strictly ascending id order: each page is ascending
with no duplicate ids and ids do not decrease across pages, with identifiers
globally unique (spec section 3). -/
abbrev RemoteSorted (rs : List CaseResponseDTO) : Prop :=
  rs.Pairwise (fun a b => a.id < b.id)

/-- Merge of a pre-pass local row with the remote record of the same id: the
row the pass leaves at that id (`src/db/db_client.py:127-129`). -/
def mergedCase (l : Case) (r : CaseResponseDTO) : Case :=
  if r.logical_timestamp > l.logical_timestamp
  then { l with logical_timestamp := r.logical_timestamp, blob := model_dump_json r }
  else l

/-- Row the pass leaves for remote record `r` given pre-pass table `store`:
the merge with the existing row of the same id, or a fresh row. -/
def specEntry (store : List Case) (r : CaseResponseDTO) : Case :=
  match getCase store r.id with
  | some l => mergedCase l r
  | none => caseOfRemote r

/-- Intended final table of one pass: one row per remote record, in the
remote order. -/
def resultSpec (store : List Case) (remotes : List CaseResponseDTO) : List Case :=
  remotes.map (specEntry store)

/-- Deletion of every row of `rows` (by primary key) from `store`, in order:
the loop of `src/db/db_client.py:166-169`. -/
def removeAll (store : List Case) (rows : List Case) : List Case :=
  rows.foldl (fun s c => removeCase s c.id) store

/-- Merge loop over a remote record list followed by the trailing cleanup:
the table produced from session table `store`, remote records `remotes` and
open local cursor `locs`. -/
def syncCore (store : List Case) (remotes : List CaseResponseDTO) (locs : List Case) :
    List Case :=
  removeAll (walk store remotes locs).1 (walk store remotes locs).2

/-! ### Basic lemmas about the table operations -/

theorem idsOf_nil : idsOf [] = [] := rfl

theorem idsOf_cons (c : Case) (s : List Case) : idsOf (c :: s) = c.id :: idsOf s := rfl

theorem getCase_eq_none_iff (s : List Case) (x : Nat) :
    getCase s x = none ↔ x ∉ idsOf s := by
  induction s with
  | nil => simp [getCase, idsOf]
  | cons c cs ih =>
    rw [idsOf_cons, List.mem_cons]
    by_cases h : c.id = x
    · simp [getCase, h]
    · simp only [getCase, if_neg h]
      rw [ih]
      constructor
      · intro hn
        rintro (rfl | hx)
        · exact h rfl
        · exact hn hx
      · intro hn hx
        exact hn (Or.inr hx)

theorem getCase_some {s : List Case} {x : Nat} {c : Case}
    (h : getCase s x = some c) : c ∈ s ∧ c.id = x := by
  induction s with
  | nil => simp [getCase] at h
  | cons a as ih =>
    by_cases ha : a.id = x
    · simp only [getCase, if_pos ha, Option.some.injEq] at h
      subst h
      exact ⟨List.mem_cons_self a as, ha⟩
    · simp only [getCase, if_neg ha] at h
      obtain ⟨hm, hi⟩ := ih h
      exact ⟨List.mem_cons_of_mem a hm, hi⟩

theorem exists_getCase_of_mem_ids {s : List Case} {x : Nat}
    (h : x ∈ idsOf s) : ∃ c, getCase s x = some c := by
  cases hg : getCase s x with
  | some c => exact ⟨c, rfl⟩
  | none => exact absurd h ((getCase_eq_none_iff s x).mp hg)

theorem getCase_self_of_sorted {s : List Case} {c : Case}
    (hs : SortedById s) (hc : c ∈ s) : getCase s c.id = some c := by
  induction s with
  | nil => simp at hc
  | cons a as ih =>
    rcases List.mem_cons.mp hc with rfl | hc'
    · simp [getCase]
    · have hlt : a.id < c.id := (List.pairwise_cons.mp hs).1 c hc'
      rw [getCase, if_neg (Nat.ne_of_lt hlt)]
      exact ih (List.pairwise_cons.mp hs).2 hc'

theorem findRemote_eq_none_iff (rs : List CaseResponseDTO) (x : Nat) :
    findRemote rs x = none ↔ x ∉ rs.map CaseResponseDTO.id := by
  induction rs with
  | nil => simp [findRemote]
  | cons r rs ih =>
    rw [List.map_cons, List.mem_cons]
    by_cases h : r.id = x
    · simp [findRemote, h]
    · simp only [findRemote, if_neg h]
      rw [ih]
      constructor
      · intro hn
        rintro (rfl | hx)
        · exact h rfl
        · exact hn hx
      · intro hn hx
        exact hn (Or.inr hx)

theorem findRemote_some {rs : List CaseResponseDTO} {x : Nat} {r : CaseResponseDTO}
    (h : findRemote rs x = some r) : r ∈ rs ∧ r.id = x := by
  induction rs with
  | nil => simp [findRemote] at h
  | cons a as ih =>
    by_cases ha : a.id = x
    · simp only [findRemote, if_pos ha, Option.some.injEq] at h
      subst h
      exact ⟨List.mem_cons_self a as, ha⟩
    · simp only [findRemote, if_neg ha] at h
      obtain ⟨hm, hi⟩ := ih h
      exact ⟨List.mem_cons_of_mem a hm, hi⟩

theorem exists_findRemote_of_mem_ids {rs : List CaseResponseDTO} {x : Nat}
    (h : x ∈ rs.map CaseResponseDTO.id) : ∃ r, findRemote rs x = some r := by
  cases hg : findRemote rs x with
  | some r => exact ⟨r, rfl⟩
  | none => exact absurd h ((findRemote_eq_none_iff rs x).mp hg)

theorem findRemote_self_of_sorted {rs : List CaseResponseDTO} {r : CaseResponseDTO}
    (hs : RemoteSorted rs) (hr : r ∈ rs) : findRemote rs r.id = some r := by
  induction rs with
  | nil => simp at hr
  | cons a as ih =>
    rcases List.mem_cons.mp hr with rfl | hr'
    · simp [findRemote]
    · have hlt : a.id < r.id := (List.pairwise_cons.mp hs).1 r hr'
      rw [findRemote, if_neg (Nat.ne_of_lt hlt)]
      exact ih (List.pairwise_cons.mp hs).2 hr'

theorem getCase_addCase (s : List Case) (c : Case) (x : Nat) :
    getCase (addCase s c) x = if c.id = x then some c else getCase s x := by
  induction s with
  | nil => simp only [addCase, getCase]
  | cons a as ih =>
    by_cases h1 : c.id < a.id
    · rw [addCase, if_pos h1]
      simp only [getCase]
    · by_cases h2 : c.id = a.id
      · rw [addCase, if_neg h1, if_pos h2]
        simp only [getCase]
        by_cases hcx : c.id = x
        · rw [if_pos hcx, if_pos hcx]
        · rw [if_neg hcx, if_neg hcx, if_neg (fun hax : a.id = x => hcx (h2.trans hax))]
      · rw [addCase, if_neg h1, if_neg h2]
        simp only [getCase, ih]
        by_cases hax : a.id = x
        · have hcx : ¬ c.id = x := fun hcx => h2 (hcx.trans hax.symm)
          simp [hax, hcx]
        · by_cases hcx : c.id = x <;> simp [hax, hcx]

theorem mem_addCase {s : List Case} {c z : Case}
    (h : z ∈ addCase s c) : z = c ∨ z ∈ s := by
  induction s with
  | nil =>
    simp only [addCase, List.mem_singleton] at h
    exact Or.inl h
  | cons a as ih =>
    by_cases h1 : c.id < a.id
    · rw [addCase, if_pos h1] at h
      rcases List.mem_cons.mp h with rfl | h'
      · exact Or.inl rfl
      · exact Or.inr h'
    · by_cases h2 : c.id = a.id
      · rw [addCase, if_neg h1, if_pos h2] at h
        rcases List.mem_cons.mp h with rfl | h'
        · exact Or.inl rfl
        · exact Or.inr (List.mem_cons_of_mem _ h')
      · rw [addCase, if_neg h1, if_neg h2] at h
        rcases List.mem_cons.mp h with rfl | h'
        · exact Or.inr (List.mem_cons_self _ _)
        · rcases ih h' with hz | hz
          · exact Or.inl hz
          · exact Or.inr (List.mem_cons_of_mem _ hz)

theorem mem_ids_addCase (s : List Case) (c : Case) (x : Nat) :
    x ∈ idsOf (addCase s c) ↔ x = c.id ∨ x ∈ idsOf s := by
  induction s with
  | nil => simp [addCase, idsOf]
  | cons a as ih =>
    by_cases h1 : c.id < a.id
    · rw [addCase, if_pos h1]
      simp only [idsOf_cons, List.mem_cons]
    · by_cases h2 : c.id = a.id
      · rw [addCase, if_neg h1, if_pos h2, idsOf_cons, idsOf_cons]
        simp only [List.mem_cons]
        constructor
        · rintro (rfl | h)
          · exact Or.inl rfl
          · exact Or.inr (Or.inr h)
        · rintro (rfl | rfl | h)
          · exact Or.inl rfl
          · exact Or.inl h2.symm
          · exact Or.inr h
      · rw [addCase, if_neg h1, if_neg h2, idsOf_cons, idsOf_cons]
        simp only [List.mem_cons]
        rw [ih]
        tauto

theorem sorted_addCase {s : List Case} (c : Case)
    (hs : SortedById s) : SortedById (addCase s c) := by
  induction s with
  | nil => simp [addCase]
  | cons a as ih =>
    obtain ⟨hhead, htail⟩ := List.pairwise_cons.mp hs
    by_cases h1 : c.id < a.id
    · rw [addCase, if_pos h1]
      refine List.pairwise_cons.mpr ⟨?_, hs⟩
      intro b hb
      rcases List.mem_cons.mp hb with rfl | hb'
      · exact h1
      · exact Nat.lt_trans h1 (hhead b hb')
    · by_cases h2 : c.id = a.id
      · rw [addCase, if_neg h1, if_pos h2]
        exact List.pairwise_cons.mpr ⟨fun b hb => h2 ▸ hhead b hb, htail⟩
      · rw [addCase, if_neg h1, if_neg h2]
        refine List.pairwise_cons.mpr ⟨?_, ih htail⟩
        intro b hb
        rcases mem_addCase hb with rfl | hb'
        · omega
        · exact hhead b hb'

theorem getCase_removeCase (s : List Case) (i x : Nat) :
    getCase (removeCase s i) x = if x = i then none else getCase s x := by
  induction s with
  | nil => simp [removeCase, getCase]
  | cons a as ih =>
    rw [removeCase, List.filter_cons]
    rw [removeCase] at ih
    by_cases hai : a.id = i
    · rw [if_neg (by simp [hai]), ih]
      by_cases hx : x = i
      · simp [hx]
      · rw [if_neg hx, if_neg hx]
        simp only [getCase]
        rw [if_neg (show ¬ a.id = x from fun h => hx (h.symm.trans hai))]
    · rw [if_pos (by simp [hai])]
      simp only [getCase]
      by_cases hax : a.id = x
      · rw [if_pos hax, if_neg (show ¬ x = i from fun h => hai (hax.trans h)), if_pos hax]
      · rw [if_neg hax, if_neg hax, ih]

theorem mem_ids_removeCase (s : List Case) (i x : Nat) :
    x ∈ idsOf (removeCase s i) ↔ x ∈ idsOf s ∧ x ≠ i := by
  induction s with
  | nil => simp [removeCase, idsOf]
  | cons a as ih =>
    rw [removeCase, List.filter_cons]
    rw [removeCase] at ih
    by_cases hai : a.id = i
    · rw [if_neg (by simp [hai]), ih, idsOf_cons]
      simp only [List.mem_cons]
      constructor
      · rintro ⟨hm, hne⟩
        exact ⟨Or.inr hm, hne⟩
      · rintro ⟨(rfl | hm), hne⟩
        · exact absurd hai hne
        · exact ⟨hm, hne⟩
    · rw [if_pos (by simp [hai]), idsOf_cons, idsOf_cons]
      simp only [List.mem_cons]
      rw [ih]
      constructor
      · rintro (rfl | ⟨hm, hne⟩)
        · exact ⟨Or.inl rfl, fun h => hai (h ▸ rfl)⟩
        · exact ⟨Or.inr hm, hne⟩
      · rintro ⟨(rfl | hm), hne⟩
        · exact Or.inl rfl
        · exact Or.inr ⟨hm, hne⟩

theorem sorted_removeCase {s : List Case} (i : Nat)
    (hs : SortedById s) : SortedById (removeCase s i) :=
  List.Pairwise.sublist (List.filter_sublist s) hs

theorem getCase_updateCase (s : List Case) (i : Nat) (lt : Int) (b : String) (x : Nat) :
    getCase (updateCase s i lt b) x =
      (getCase s x).map (fun c =>
        if c.id = i then { c with logical_timestamp := lt, blob := b } else c) := by
  induction s with
  | nil => simp [updateCase, getCase]
  | cons a as ih =>
    rw [updateCase, List.map_cons]
    rw [updateCase] at ih
    have hgx : (if a.id = i then ({ a with logical_timestamp := lt, blob := b } : Case)
        else a).id = a.id := by
      by_cases hai : a.id = i <;> simp [hai]
    simp only [getCase]
    by_cases hax : a.id = x
    · rw [if_pos (hgx.trans hax), if_pos hax, Option.map_some']
    · rw [if_neg (fun h => hax (hgx.symm.trans h)), if_neg hax, ih]

theorem ids_updateCase (s : List Case) (i : Nat) (lt : Int) (b : String) :
    idsOf (updateCase s i lt b) = idsOf s := by
  simp only [idsOf, updateCase, List.map_map]
  apply List.map_congr_left
  intro c _
  by_cases h : c.id = i <;> simp [h]

theorem sorted_updateCase {s : List Case} (i : Nat) (lt : Int) (b : String)
    (hs : SortedById s) : SortedById (updateCase s i lt b) := by
  show List.Pairwise _ (updateCase s i lt b)
  rw [updateCase, List.pairwise_map]
  apply hs.imp
  intro a b' hab
  by_cases ha : a.id = i <;> by_cases hb : b'.id = i <;> simp [ha, hb] <;> omega

/-! ### Lemmas about deleting a list of rows -/

theorem removeAll_nil (s : List Case) : removeAll s [] = s := rfl

theorem removeAll_cons (s : List Case) (c : Case) (cs : List Case) :
    removeAll s (c :: cs) = removeAll (removeCase s c.id) cs := rfl

theorem getCase_removeAll {rows : List Case} {x : Nat} (s : List Case)
    (h : x ∉ idsOf rows) :
    getCase (removeAll s rows) x = getCase s x := by
  induction rows generalizing s with
  | nil => rfl
  | cons c cs ih =>
    rw [idsOf_cons, List.mem_cons] at h
    push_neg at h
    rw [removeAll_cons, ih _ h.2, getCase_removeCase, if_neg h.1]

theorem mem_ids_removeAll (rows s : List Case) (x : Nat) :
    x ∈ idsOf (removeAll s rows) ↔ x ∈ idsOf s ∧ x ∉ idsOf rows := by
  induction rows generalizing s with
  | nil => simp [removeAll_nil, idsOf]
  | cons c cs ih =>
    rw [removeAll_cons, ih, mem_ids_removeCase, idsOf_cons, List.mem_cons]
    constructor
    · rintro ⟨⟨hm, hne⟩, hnotin⟩
      exact ⟨hm, fun hor => hor.elim hne hnotin⟩
    · rintro ⟨hm, hn⟩
      push_neg at hn
      exact ⟨⟨hm, hn.1⟩, hn.2⟩

theorem sorted_removeAll {s : List Case} (rows : List Case)
    (hs : SortedById s) : SortedById (removeAll s rows) := by
  induction rows generalizing s with
  | nil => exact hs
  | cons c cs ih => exact ih (sorted_removeCase _ hs)

theorem caseOfRemote_id (r : CaseResponseDTO) : (caseOfRemote r).id = r.id := rfl

theorem getCase_updateCase_ne {s : List Case} {i x : Nat} (lt : Int) (b : String)
    (h : ¬ x = i) : getCase (updateCase s i lt b) x = getCase s x := by
  rw [getCase_updateCase]
  cases hg : getCase s x with
  | none => rfl
  | some c =>
    have hc := (getCase_some hg).2
    rw [Option.map_some', if_neg (fun hh => h (hc ▸ hh))]

theorem getCase_updateCase_self {s : List Case} {i : Nat} {c : Case} (lt : Int) (b : String)
    (h : getCase s i = some c) :
    getCase (updateCase s i lt b) i =
      some { c with logical_timestamp := lt, blob := b } := by
  rw [getCase_updateCase, h, Option.map_some', if_pos (getCase_some h).2]

/-! ### Step equations of the merge loop -/

theorem walk_nil (store : List Case) (locs : List Case) :
    walk store [] locs = (store, locs) := by
  rw [walk]

theorem walk_cons_nil (store : List Case) (r : CaseResponseDTO)
    (rs : List CaseResponseDTO) :
    walk store (r :: rs) [] = walk (addCase store (caseOfRemote r)) rs [] := by
  rw [walk]

theorem walk_cons_eq {r : CaseResponseDTO} {l : Case} (store : List Case)
    (rs : List CaseResponseDTO) (ls : List Case) (h : r.id = l.id) :
    walk store (r :: rs) (l :: ls) =
      walk (if r.logical_timestamp > l.logical_timestamp
            then updateCase store l.id r.logical_timestamp (model_dump_json r)
            else store) rs ls := by
  rw [walk, if_pos h]

theorem walk_cons_lt {r : CaseResponseDTO} {l : Case} (store : List Case)
    (rs : List CaseResponseDTO) (ls : List Case)
    (h1 : ¬ r.id = l.id) (h2 : r.id < l.id) :
    walk store (r :: rs) (l :: ls) =
      walk (addCase store (caseOfRemote r)) rs (l :: ls) := by
  rw [walk, if_neg h1, if_pos h2]

theorem walk_cons_gt {r : CaseResponseDTO} {l : Case} (store : List Case)
    (rs : List CaseResponseDTO) (ls : List Case)
    (h1 : ¬ r.id = l.id) (h2 : ¬ r.id < l.id) :
    walk store (r :: rs) (l :: ls) = walk (removeCase store l.id) (r :: rs) ls := by
  rw [walk, if_neg h1, if_neg h2]

theorem syncCore_nil (store locs : List Case) :
    syncCore store [] locs = removeAll store locs := by
  rw [syncCore, walk_nil]

theorem syncCore_cons_nil (store : List Case) (r : CaseResponseDTO)
    (rs : List CaseResponseDTO) :
    syncCore store (r :: rs) [] = syncCore (addCase store (caseOfRemote r)) rs [] := by
  unfold syncCore
  rw [walk_cons_nil]

theorem syncCore_cons_eq {r : CaseResponseDTO} {l : Case} (store : List Case)
    (rs : List CaseResponseDTO) (ls : List Case) (h : r.id = l.id) :
    syncCore store (r :: rs) (l :: ls) =
      syncCore (if r.logical_timestamp > l.logical_timestamp
                then updateCase store l.id r.logical_timestamp (model_dump_json r)
                else store) rs ls := by
  unfold syncCore
  rw [walk_cons_eq _ _ _ h]

theorem syncCore_cons_lt {r : CaseResponseDTO} {l : Case} (store : List Case)
    (rs : List CaseResponseDTO) (ls : List Case)
    (h1 : ¬ r.id = l.id) (h2 : r.id < l.id) :
    syncCore store (r :: rs) (l :: ls) =
      syncCore (addCase store (caseOfRemote r)) rs (l :: ls) := by
  unfold syncCore
  rw [walk_cons_lt _ _ _ h1 h2]

theorem syncCore_cons_gt {r : CaseResponseDTO} {l : Case} (store : List Case)
    (rs : List CaseResponseDTO) (ls : List Case)
    (h1 : ¬ r.id = l.id) (h2 : ¬ r.id < l.id) :
    syncCore store (r :: rs) (l :: ls) = syncCore (removeCase store l.id) (r :: rs) ls := by
  unfold syncCore
  rw [walk_cons_gt _ _ _ h1 h2]

/-- Merging a concatenation of two remote batches is merging the first and
continuing with the session table and cursor it leaves: page boundaries are
invisible to the merge loop. -/
theorem walk_append (store : List Case) (a b : List CaseResponseDTO) (locs : List Case) :
    walk store (a ++ b) locs = walk (walk store a locs).1 b (walk store a locs).2 := by
  induction store, a, locs using walk.induct with
  | case1 store locs => rw [List.nil_append, walk_nil]
  | case2 store r rs ih =>
    rw [List.cons_append, walk_cons_nil, ih, walk_cons_nil]
  | case3 store r rs l ls h ih =>
    rw [List.cons_append, walk_cons_eq _ _ _ h, walk_cons_eq _ _ _ h]
    by_cases hlt : r.logical_timestamp > l.logical_timestamp
    · simp only [hlt, if_true, dite_true] at ih ⊢
      exact ih
    · simp only [hlt, if_false, dite_false] at ih ⊢
      exact ih
  | case4 store r rs l ls h1 h2 ih =>
    rw [List.cons_append, walk_cons_lt _ _ _ h1 h2, ih, walk_cons_lt _ _ _ h1 h2]
  | case5 store r rs l ls h1 h2 ih =>
    rw [List.cons_append, walk_cons_gt _ _ _ h1 h2, ← List.cons_append, ih,
      walk_cons_gt _ _ _ h1 h2]

/-! ### Invariant lemmas for the merge -/

theorem syncCore_sorted (store : List Case) (remotes : List CaseResponseDTO)
    (locs : List Case) :
    SortedById store → SortedById (syncCore store remotes locs) := by
  induction store, remotes, locs using walk.induct with
  | case1 store locs =>
    intro hs
    rw [syncCore_nil]
    exact sorted_removeAll _ hs
  | case2 store r rs ih =>
    intro hs
    rw [syncCore_cons_nil]
    exact ih (sorted_addCase _ hs)
  | case3 store r rs l ls h ih =>
    intro hs
    rw [syncCore_cons_eq _ _ _ h]
    by_cases hlt : r.logical_timestamp > l.logical_timestamp
    · simp only [hlt, if_true, dite_true] at ih ⊢
      exact ih (sorted_updateCase _ _ _ hs)
    · simp only [hlt, if_false, dite_false] at ih ⊢
      exact ih hs
  | case4 store r rs l ls h1 h2 ih =>
    intro hs
    rw [syncCore_cons_lt _ _ _ h1 h2]
    exact ih (sorted_addCase _ hs)
  | case5 store r rs l ls h1 h2 ih =>
    intro hs
    rw [syncCore_cons_gt _ _ _ h1 h2]
    exact ih (sorted_removeCase _ hs)

/-- Rows whose id occurs neither among the remote records nor in the open
cursor are not touched by the merge or the trailing cleanup. -/
theorem syncCore_frame (store : List Case) (remotes : List CaseResponseDTO)
    (locs : List Case) (x : Nat) :
    x ∉ remotes.map CaseResponseDTO.id → x ∉ idsOf locs →
    getCase (syncCore store remotes locs) x = getCase store x := by
  induction store, remotes, locs using walk.induct with
  | case1 store locs =>
    intro _ hl
    rw [syncCore_nil]
    exact getCase_removeAll _ hl
  | case2 store r rs ih =>
    intro hr hl
    rw [List.map_cons, List.mem_cons] at hr
    push_neg at hr
    rw [syncCore_cons_nil, ih hr.2 hl, getCase_addCase,
      if_neg (show ¬ (caseOfRemote r).id = x from
        fun hh => hr.1 ((caseOfRemote_id r ▸ hh).symm))]
  | case3 store r rs l ls h ih =>
    intro hr hl
    rw [List.map_cons, List.mem_cons] at hr
    push_neg at hr
    rw [idsOf_cons, List.mem_cons] at hl
    push_neg at hl
    rw [syncCore_cons_eq _ _ _ h]
    by_cases hlt : r.logical_timestamp > l.logical_timestamp
    · simp only [hlt, if_true, dite_true] at ih ⊢
      rw [ih hr.2 hl.2, getCase_updateCase_ne _ _ hl.1]
    · simp only [hlt, if_false, dite_false] at ih ⊢
      exact ih hr.2 hl.2
  | case4 store r rs l ls h1 h2 ih =>
    intro hr hl
    rw [List.map_cons, List.mem_cons] at hr
    push_neg at hr
    rw [syncCore_cons_lt _ _ _ h1 h2, ih hr.2 hl, getCase_addCase,
      if_neg (show ¬ (caseOfRemote r).id = x from
        fun hh => hr.1 ((caseOfRemote_id r ▸ hh).symm))]
  | case5 store r rs l ls h1 h2 ih =>
    intro hr hl
    rw [idsOf_cons, List.mem_cons] at hl
    push_neg at hl
    rw [syncCore_cons_gt _ _ _ h1 h2, ih hr hl.2, getCase_removeCase, if_neg hl.1]

/-- Identifier membership after the merge and cleanup: an id survives exactly
when it is a remote id, or a table id the open cursor will never reach. -/
theorem syncCore_mem (store : List Case) (remotes : List CaseResponseDTO)
    (locs : List Case) (x : Nat) :
    SortedById locs → (∀ c ∈ locs, c.id ∈ idsOf store) →
    (x ∈ idsOf (syncCore store remotes locs) ↔
      (x ∈ idsOf store ∧ x ∉ idsOf locs) ∨ x ∈ remotes.map CaseResponseDTO.id) := by
  induction store, remotes, locs using walk.induct with
  | case1 store locs =>
    intro _ _
    rw [syncCore_nil, mem_ids_removeAll]
    simp
  | case2 store r rs ih =>
    intro _ _
    rw [syncCore_cons_nil,
      ih List.Pairwise.nil (fun c hc => absurd hc (List.not_mem_nil c)),
      mem_ids_addCase, caseOfRemote_id, List.map_cons, List.mem_cons]
    simp only [idsOf_nil, List.not_mem_nil, not_false_eq_true, and_true]
    tauto
  | case3 store r rs l ls h ih =>
    intro hls hsub
    obtain ⟨hlhead, hltail⟩ := List.pairwise_cons.mp hls
    rw [dite_eq_ite] at ih
    rw [syncCore_cons_eq _ _ _ h]
    have hids : idsOf (if r.logical_timestamp > l.logical_timestamp
        then updateCase store l.id r.logical_timestamp (model_dump_json r)
        else store) = idsOf store := by
      by_cases hlt : r.logical_timestamp > l.logical_timestamp <;>
        simp [hlt, ids_updateCase]
    have hsub2 : ∀ c ∈ ls, c.id ∈ idsOf (if r.logical_timestamp > l.logical_timestamp
        then updateCase store l.id r.logical_timestamp (model_dump_json r)
        else store) := by
      intro c hc
      rw [hids]
      exact hsub c (List.mem_cons_of_mem _ hc)
    rw [ih hltail hsub2, hids, idsOf_cons, List.mem_cons, List.map_cons, List.mem_cons]
    have hrl : (x = r.id) ↔ (x = l.id) := by rw [h]
    by_cases hx : x = l.id
    · have hA : x ∈ idsOf store := hx ▸ hsub l (List.mem_cons_self l ls)
      have hB : x ∉ idsOf ls := by
        rw [hx]
        intro hmem
        obtain ⟨c, hc, hcid⟩ := List.mem_map.mp hmem
        exact (Nat.ne_of_lt (hlhead c hc)) hcid.symm
      tauto
    · tauto
  | case4 store r rs l ls h1 h2 ih =>
    intro hls hsub
    rw [syncCore_cons_lt _ _ _ h1 h2]
    have hsub2 : ∀ c ∈ l :: ls, c.id ∈ idsOf (addCase store (caseOfRemote r)) := by
      intro c hc
      rw [mem_ids_addCase]
      exact Or.inr (hsub c hc)
    rw [ih hls hsub2, mem_ids_addCase, caseOfRemote_id, List.map_cons, List.mem_cons]
    by_cases hx : x = r.id
    · have hnot : x ∉ idsOf (l :: ls) := by
        rw [hx]
        intro hmem
        obtain ⟨c, hc, hcid⟩ := List.mem_map.mp hmem
        rcases List.mem_cons.mp hc with rfl | hc'
        · omega
        · have := (List.pairwise_cons.mp hls).1 c hc'
          omega
      tauto
    · tauto
  | case5 store r rs l ls h1 h2 ih =>
    intro hls hsub
    obtain ⟨hlhead, hltail⟩ := List.pairwise_cons.mp hls
    rw [syncCore_cons_gt _ _ _ h1 h2]
    have hsub2 : ∀ c ∈ ls, c.id ∈ idsOf (removeCase store l.id) := by
      intro c hc
      rw [mem_ids_removeCase]
      exact ⟨hsub c (List.mem_cons_of_mem _ hc), Nat.ne_of_gt (hlhead c hc)⟩
    rw [ih hltail hsub2, mem_ids_removeCase, idsOf_cons, List.mem_cons]
    tauto

/-- Content after the pass, matched case: an id present in both the open
cursor and the remote records ends up holding the merge of its cursor row
with its remote record. -/
theorem syncCore_content_some (store : List Case) (remotes : List CaseResponseDTO)
    (locs : List Case) (x : Nat) (r : CaseResponseDTO) (l : Case) :
    RemoteSorted remotes → SortedById locs →
    (∀ c ∈ locs, getCase store c.id = some c) →
    findRemote remotes x = some r →
    getCase locs x = some l →
    getCase (syncCore store remotes locs) x = some (mergedCase l r) := by
  induction store, remotes, locs using walk.induct with
  | case1 store locs =>
    intro _ _ _ hfind _
    rw [findRemote] at hfind
    exact Option.noConfusion hfind
  | case2 store r0 rs ih =>
    intro _ _ _ _ hloc
    rw [getCase] at hloc
    exact Option.noConfusion hloc
  | case3 store r0 rs l0 ls h ih =>
    intro hrs hls hcur hfind hloc
    obtain ⟨hrhead, hrtail⟩ := List.pairwise_cons.mp hrs
    obtain ⟨hlhead, hltail⟩ := List.pairwise_cons.mp hls
    rw [dite_eq_ite] at ih
    rw [syncCore_cons_eq _ _ _ h]
    by_cases hx : l0.id = x
    · have hr0 : r0 = r := by
        rw [findRemote, if_pos (h.trans hx)] at hfind
        simpa using hfind
      have hl0 : l0 = l := by
        rw [getCase, if_pos hx] at hloc
        simpa using hloc
      subst hr0
      subst hl0
      have hxrs : x ∉ rs.map CaseResponseDTO.id := by
        intro hmem
        obtain ⟨q, hq, hqid⟩ := List.mem_map.mp hmem
        have := hrhead q hq
        omega
      have hxls : x ∉ idsOf ls := by
        intro hmem
        obtain ⟨c, hc, hcid⟩ := List.mem_map.mp hmem
        have := hlhead c hc
        omega
      rw [syncCore_frame _ _ _ _ hxrs hxls]
      have hg : getCase store l0.id = some l0 := hcur l0 (List.mem_cons_self _ _)
      by_cases hlt : r0.logical_timestamp > l0.logical_timestamp
      · rw [if_pos hlt, mergedCase, if_pos hlt, ← hx,
          getCase_updateCase_self _ _ hg]
      · rw [if_neg hlt, mergedCase, if_neg hlt, ← hx]
        exact hg
    · have hr0x : ¬ r0.id = x := fun hh => hx (h.symm.trans hh)
      rw [findRemote, if_neg hr0x] at hfind
      rw [getCase, if_neg hx] at hloc
      have hcur2 : ∀ c ∈ ls,
          getCase (if r0.logical_timestamp > l0.logical_timestamp
            then updateCase store l0.id r0.logical_timestamp (model_dump_json r0)
            else store) c.id = some c := by
        intro c hc
        have hne : ¬ c.id = l0.id := Nat.ne_of_gt (hlhead c hc)
        by_cases hlt : r0.logical_timestamp > l0.logical_timestamp
        · rw [if_pos hlt, getCase_updateCase_ne _ _ hne]
          exact hcur c (List.mem_cons_of_mem _ hc)
        · rw [if_neg hlt]
          exact hcur c (List.mem_cons_of_mem _ hc)
      exact ih hrtail hltail hcur2 hfind hloc
  | case4 store r0 rs l0 ls h1 h2 ih =>
    intro hrs hls hcur hfind hloc
    obtain ⟨hrhead, hrtail⟩ := List.pairwise_cons.mp hrs
    rw [syncCore_cons_lt _ _ _ h1 h2]
    have hxl : l0.id ≤ x := by
      obtain ⟨hm, hid⟩ := getCase_some hloc
      rcases List.mem_cons.mp hm with rfl | hm'
      · omega
      · have := (List.pairwise_cons.mp hls).1 l hm'
        omega
    have hr0x : ¬ r0.id = x := by omega
    rw [findRemote, if_neg hr0x] at hfind
    have hcur2 : ∀ c ∈ l0 :: ls,
        getCase (addCase store (caseOfRemote r0)) c.id = some c := by
      intro c hc
      have hcge : l0.id ≤ c.id := by
        rcases List.mem_cons.mp hc with rfl | hc'
        · omega
        · exact Nat.le_of_lt ((List.pairwise_cons.mp hls).1 c hc')
      rw [getCase_addCase, if_neg (show ¬ (caseOfRemote r0).id = c.id by
        rw [caseOfRemote_id]; omega)]
      exact hcur c hc
    exact ih hrtail hls hcur2 hfind hloc
  | case5 store r0 rs l0 ls h1 h2 ih =>
    intro hrs hls hcur hfind hloc
    obtain ⟨hlhead, hltail⟩ := List.pairwise_cons.mp hls
    rw [syncCore_cons_gt _ _ _ h1 h2]
    have hxl0 : ¬ x = l0.id := by
      intro hxe
      by_cases hr0 : r0.id = x
      · omega
      · rw [findRemote, if_neg hr0] at hfind
        obtain ⟨hm, hid⟩ := findRemote_some hfind
        have := (List.pairwise_cons.mp hrs).1 _ hm
        omega
    rw [getCase, if_neg (fun hh => hxl0 hh.symm)] at hloc
    have hcur2 : ∀ c ∈ ls, getCase (removeCase store l0.id) c.id = some c := by
      intro c hc
      rw [getCase_removeCase, if_neg (Nat.ne_of_gt (hlhead c hc))]
      exact hcur c (List.mem_cons_of_mem _ hc)
    exact ih hrs hltail hcur2 hfind hloc

/-- Content after the pass, fresh case: a remote id with no row in the open
cursor ends up holding the freshly inserted row built from its remote
record. -/
theorem syncCore_content_none (store : List Case) (remotes : List CaseResponseDTO)
    (locs : List Case) (x : Nat) (r : CaseResponseDTO) :
    RemoteSorted remotes → SortedById locs →
    (∀ c ∈ locs, getCase store c.id = some c) →
    findRemote remotes x = some r →
    getCase locs x = none →
    getCase (syncCore store remotes locs) x = some (caseOfRemote r) := by
  induction store, remotes, locs using walk.induct with
  | case1 store locs =>
    intro _ _ _ hfind _
    rw [findRemote] at hfind
    exact Option.noConfusion hfind
  | case2 store r0 rs ih =>
    intro hrs _ _ hfind _
    obtain ⟨hrhead, hrtail⟩ := List.pairwise_cons.mp hrs
    rw [syncCore_cons_nil]
    by_cases hx : r0.id = x
    · have hr0 : r0 = r := by
        rw [findRemote, if_pos hx] at hfind
        simpa using hfind
      subst hr0
      have hxrs : x ∉ rs.map CaseResponseDTO.id := by
        intro hmem
        obtain ⟨q, hq, hqid⟩ := List.mem_map.mp hmem
        have := hrhead q hq
        omega
      rw [syncCore_frame _ rs [] x hxrs (by simp), getCase_addCase,
        if_pos ((caseOfRemote_id r0).trans hx)]
    · rw [findRemote, if_neg hx] at hfind
      exact ih hrtail List.Pairwise.nil
        (fun c hc => absurd hc (List.not_mem_nil c)) hfind rfl
  | case3 store r0 rs l0 ls h ih =>
    intro hrs hls hcur hfind hloc
    obtain ⟨hlhead, hltail⟩ := List.pairwise_cons.mp hls
    rw [dite_eq_ite] at ih
    rw [syncCore_cons_eq _ _ _ h]
    have hxl0 : ¬ l0.id = x := by
      intro hh
      rw [getCase, if_pos hh] at hloc
      exact Option.noConfusion hloc
    have hr0x : ¬ r0.id = x := fun hh => hxl0 (h.symm.trans hh)
    rw [findRemote, if_neg hr0x] at hfind
    rw [getCase, if_neg hxl0] at hloc
    have hcur2 : ∀ c ∈ ls,
        getCase (if r0.logical_timestamp > l0.logical_timestamp
          then updateCase store l0.id r0.logical_timestamp (model_dump_json r0)
          else store) c.id = some c := by
      intro c hc
      have hne : ¬ c.id = l0.id := Nat.ne_of_gt (hlhead c hc)
      by_cases hlt : r0.logical_timestamp > l0.logical_timestamp
      · rw [if_pos hlt, getCase_updateCase_ne _ _ hne]
        exact hcur c (List.mem_cons_of_mem _ hc)
      · rw [if_neg hlt]
        exact hcur c (List.mem_cons_of_mem _ hc)
    exact ih (List.pairwise_cons.mp hrs).2 hltail hcur2 hfind hloc
  | case4 store r0 rs l0 ls h1 h2 ih =>
    intro hrs hls hcur hfind hloc
    obtain ⟨hrhead, hrtail⟩ := List.pairwise_cons.mp hrs
    rw [syncCore_cons_lt _ _ _ h1 h2]
    by_cases hx : r0.id = x
    · have hr0 : r0 = r := by
        rw [findRemote, if_pos hx] at hfind
        simpa using hfind
      subst hr0
      have hxrs : x ∉ rs.map CaseResponseDTO.id := by
        intro hmem
        obtain ⟨q, hq, hqid⟩ := List.mem_map.mp hmem
        have := hrhead q hq
        omega
      have hxlocs : x ∉ idsOf (l0 :: ls) := by
        intro hmem
        obtain ⟨c, hg⟩ := exists_getCase_of_mem_ids hmem
        rw [hloc] at hg
        exact Option.noConfusion hg
      rw [syncCore_frame _ _ _ _ hxrs hxlocs, getCase_addCase,
        if_pos ((caseOfRemote_id r0).trans hx)]
    · rw [findRemote, if_neg hx] at hfind
      have hcur2 : ∀ c ∈ l0 :: ls,
          getCase (addCase store (caseOfRemote r0)) c.id = some c := by
        intro c hc
        have hcge : l0.id ≤ c.id := by
          rcases List.mem_cons.mp hc with rfl | hc'
          · omega
          · exact Nat.le_of_lt ((List.pairwise_cons.mp hls).1 c hc')
        rw [getCase_addCase, if_neg (show ¬ (caseOfRemote r0).id = c.id by
          rw [caseOfRemote_id]; omega)]
        exact hcur c hc
      exact ih hrtail hls hcur2 hfind hloc
  | case5 store r0 rs l0 ls h1 h2 ih =>
    intro hrs hls hcur hfind hloc
    obtain ⟨hlhead, hltail⟩ := List.pairwise_cons.mp hls
    rw [syncCore_cons_gt _ _ _ h1 h2]
    have hxl0 : ¬ l0.id = x := by
      intro hh
      rw [getCase, if_pos hh] at hloc
      exact Option.noConfusion hloc
    rw [getCase, if_neg hxl0] at hloc
    have hcur2 : ∀ c ∈ ls, getCase (removeCase store l0.id) c.id = some c := by
      intro c hc
      rw [getCase_removeCase, if_neg (Nat.ne_of_gt (hlhead c hc))]
      exact hcur c (List.mem_cons_of_mem _ hc)
    exact ih hrs hltail hcur2 hfind hloc

/-! ### The intended result of a pass -/

theorem mergedCase_id (l : Case) (r : CaseResponseDTO) : (mergedCase l r).id = l.id := by
  rw [mergedCase]
  by_cases hlt : r.logical_timestamp > l.logical_timestamp <;> simp [hlt]

theorem specEntry_id (store : List Case) (r : CaseResponseDTO) :
    (specEntry store r).id = r.id := by
  rw [specEntry]
  cases hg : getCase store r.id with
  | none => rfl
  | some l =>
    show (mergedCase l r).id = r.id
    rw [mergedCase_id]
    exact (getCase_some hg).2

theorem getCase_resultSpec (store : List Case) (remotes : List CaseResponseDTO) (x : Nat) :
    getCase (resultSpec store remotes) x =
      (findRemote remotes x).map (specEntry store) := by
  induction remotes with
  | nil => simp [resultSpec, getCase, findRemote]
  | cons r rs ih =>
    rw [resultSpec, List.map_cons]
    rw [resultSpec] at ih
    simp only [getCase, findRemote, specEntry_id]
    by_cases hx : r.id = x
    · rw [if_pos hx, if_pos hx, Option.map_some']
    · rw [if_neg hx, if_neg hx, ih]

theorem sorted_resultSpec (store : List Case) {remotes : List CaseResponseDTO}
    (hr : RemoteSorted remotes) : SortedById (resultSpec store remotes) := by
  rw [resultSpec]
  show List.Pairwise _ _
  rw [List.pairwise_map]
  exact hr.imp (fun hab => by
    rw [specEntry_id, specEntry_id]
    exact hab)

/-- Two tables in strictly ascending key order with the same primary-key
lookup everywhere are the same table. -/
theorem eq_of_sorted_of_getCase_eq : ∀ (a b : List Case), SortedById a → SortedById b →
    (∀ x, getCase a x = getCase b x) → a = b := by
  intro a
  induction a with
  | nil =>
    intro b _ _ h
    cases b with
    | nil => rfl
    | cons c cs =>
      have hx := h c.id
      rw [getCase, getCase, if_pos rfl] at hx
      exact Option.noConfusion hx
  | cons a' as ih =>
    intro b hsa hsb h
    cases b with
    | nil =>
      have hx := h a'.id
      rw [getCase, getCase, if_pos rfl] at hx
      exact Option.noConfusion hx
    | cons b' bs =>
      obtain ⟨hahead, hatail⟩ := List.pairwise_cons.mp hsa
      obtain ⟨hbhead, hbtail⟩ := List.pairwise_cons.mp hsb
      have ha : getCase (b' :: bs) a'.id = some a' := by
        rw [← h a'.id, getCase, if_pos rfl]
      have hb : getCase (a' :: as) b'.id = some b' := by
        rw [h b'.id, getCase, if_pos rfl]
      have hab : a'.id = b'.id := by
        rcases List.mem_cons.mp (getCase_some ha).1 with rfl | ha'
        · rfl
        · rcases List.mem_cons.mp (getCase_some hb).1 with rfl | hb'
          · rfl
          · have h1 := hbhead a' ha'
            have h2 := hahead b' hb'
            omega
      have hae : a' = b' := by
        rw [getCase, if_pos hab.symm] at ha
        simpa using ha.symm
      subst hae
      congr 1
      apply ih bs hatail hbtail
      intro x
      by_cases hx : x = a'.id
      · have hnas : getCase as a'.id = none := by
          rw [getCase_eq_none_iff]
          intro hmem
          obtain ⟨c, hc, hcid⟩ := List.mem_map.mp hmem
          exact (Nat.ne_of_lt (hahead c hc)) hcid.symm
        have hnbs : getCase bs a'.id = none := by
          rw [getCase_eq_none_iff]
          intro hmem
          obtain ⟨c, hc, hcid⟩ := List.mem_map.mp hmem
          exact (Nat.ne_of_lt (hbhead c hc)) hcid.symm
        rw [hx, hnas, hnbs]
      · have hthis := h x
        rw [getCase, getCase, if_neg (fun hh => hx hh.symm),
          if_neg (fun hh => hx hh.symm)] at hthis
        exact hthis

/-- Characterization of one full pass over sorted data: the table after the
merge of all remote records against the full-table cursor, followed by the
cleanup, is exactly one row per remote record in remote order, each merged
with the pre-pass row of the same id when one exists. -/
theorem syncCore_eq_resultSpec (store : List Case) (remotes : List CaseResponseDTO)
    (hs : SortedById store) (hr : RemoteSorted remotes) :
    syncCore store remotes store = resultSpec store remotes := by
  apply eq_of_sorted_of_getCase_eq
  · exact syncCore_sorted _ _ _ hs
  · exact sorted_resultSpec _ hr
  · intro x
    rw [getCase_resultSpec]
    have hcur : ∀ c ∈ store, getCase store c.id = some c :=
      fun c hc => getCase_self_of_sorted hs hc
    by_cases hx : x ∈ remotes.map CaseResponseDTO.id
    · obtain ⟨r, hfind⟩ := exists_findRemote_of_mem_ids hx
      have hrid : r.id = x := (findRemote_some hfind).2
      rw [hfind, Option.map_some']
      cases hg : getCase store x with
      | some l =>
        rw [syncCore_content_some _ _ _ _ _ _ hr hs hcur hfind hg, specEntry, hrid, hg]
      | none =>
        rw [syncCore_content_none _ _ _ _ _ hr hs hcur hfind hg, specEntry, hrid, hg]
    · rw [(findRemote_eq_none_iff remotes x).mpr hx, Option.map_none']
      rw [getCase_eq_none_iff,
        syncCore_mem store remotes store x hs (fun c hc => List.mem_map_of_mem Case.id hc)]
      rintro (⟨h1, h2⟩ | hmem)
      · exact h2 h1
      · exact hx hmem

/-! ### Reduction of the paginated pass to the single merge -/

theorem scanFrom_zero (store : List Case) : scanFrom store 0 = store := by
  rw [scanFrom]
  exact List.filter_eq_self.mpr (fun c _ => by simp)

theorem processPage_none (store : List Case) (m : Nat) (p : CaseQueryResponseDTO) :
    processPage ⟨store, none, m⟩ p =
      ⟨(walk store p.objects (scanFrom store m)).1,
        some (walk store p.objects (scanFrom store m)).2,
        if p.objects.isEmpty then m else Nat.max m (maxPageId p.objects + 1)⟩ := rfl

theorem processPage_some (store : List Case) (c : List Case) (m : Nat)
    (p : CaseQueryResponseDTO) :
    processPage ⟨store, some c, m⟩ p =
      ⟨(walk store p.objects c).1, some (walk store p.objects c).2,
        if p.objects.isEmpty then m else Nat.max m (maxPageId p.objects + 1)⟩ := rfl

theorem foldl_processPage_some (ps : List CaseQueryResponseDTO) :
    ∀ (s c : List Case) (m : Nat), ∃ m',
      ps.foldl processPage ⟨s, some c, m⟩ =
        ⟨(walk s (ps.flatMap CaseQueryResponseDTO.objects) c).1,
          some (walk s (ps.flatMap CaseQueryResponseDTO.objects) c).2, m'⟩ := by
  induction ps with
  | nil =>
    intro s c m
    exact ⟨m, by simp [walk_nil]⟩
  | cons p ps ih =>
    intro s c m
    rw [List.foldl_cons, processPage_some]
    obtain ⟨m', hm'⟩ := ih (walk s p.objects c).1 (walk s p.objects c).2
      (if p.objects.isEmpty then m else Nat.max m (maxPageId p.objects + 1))
    refine ⟨m', ?_⟩
    rw [hm', List.flatMap_cons, walk_append]

theorem finalizeSync_some (s : List Case) (rem : List Case) (m : Nat) :
    finalizeSync ⟨s, some rem, m⟩ = removeAll s rem := by
  cases rem with
  | nil => rfl
  | cons l ls => rfl

/-- With at least one page, the paginated pass is the merge of the
concatenation of all the pages' records against the full-table cursor opened
on the first page, followed by the trailing cleanup.  The watermark plays no
role in the result: the only local scan uses its initial value 0. -/
theorem sync_eq_syncCore (store : List Case) (ps : List CaseQueryResponseDTO)
    (hne : ps ≠ []) :
    synchronize_with_intempus store ps =
      syncCore store (ps.flatMap CaseQueryResponseDTO.objects) store := by
  cases ps with
  | nil => exact absurd rfl hne
  | cons p ps' =>
    rw [synchronize_with_intempus, initSync, List.foldl_cons, processPage_none,
      scanFrom_zero]
    obtain ⟨m', hm'⟩ := foldl_processPage_some ps' (walk store p.objects store).1
      (walk store p.objects store).2
      (if p.objects.isEmpty then 0 else Nat.max 0 (maxPageId p.objects + 1))
    rw [hm', finalizeSync_some, syncCore, List.flatMap_cons, walk_append]

/-! ### Idempotence ingredients -/

theorem sync_nil (store : List Case) : synchronize_with_intempus store [] = store := rfl

theorem specEntry_lt_ge (store : List Case) (r : CaseResponseDTO) :
    r.logical_timestamp ≤ (specEntry store r).logical_timestamp := by
  rw [specEntry]
  cases hg : getCase store r.id with
  | none => exact le_refl _
  | some l =>
    show r.logical_timestamp ≤ (mergedCase l r).logical_timestamp
    rw [mergedCase]
    by_cases hlt : r.logical_timestamp > l.logical_timestamp
    · rw [if_pos hlt]
    · rw [if_neg hlt]
      omega

theorem mergedCase_of_le {l : Case} {r : CaseResponseDTO}
    (h : r.logical_timestamp ≤ l.logical_timestamp) : mergedCase l r = l := by
  rw [mergedCase, if_neg (by omega)]

/-- A second pass over the result of a pass changes nothing: every remote
version is already at most the stored version. -/
theorem resultSpec_fixpoint (store : List Case) (remotes : List CaseResponseDTO)
    (hr : RemoteSorted remotes) :
    resultSpec (resultSpec store remotes) remotes = resultSpec store remotes := by
  have hmap : ∀ r ∈ remotes, specEntry (resultSpec store remotes) r = specEntry store r := by
    intro r hmem
    rw [specEntry, getCase_resultSpec, findRemote_self_of_sorted hr hmem,
      Option.map_some']
    show mergedCase (specEntry store r) r = specEntry store r
    exact mergedCase_of_le (specEntry_lt_ge store r)
  show List.map (specEntry (resultSpec store remotes)) remotes =
    List.map (specEntry store) remotes
  exact List.map_congr_left hmap

/-! ### Commit boundaries -/

/-- Folding the page body together with its trailing commit keeps the durable
table equal to the session table at every page boundary. -/
theorem foldl_processPageCommit (ps : List CaseQueryResponseDTO) :
    ∀ (st : SyncState) (d : List Case), d = st.store →
      ps.foldl processPageCommit (st, d) =
        (ps.foldl processPage st, (ps.foldl processPage st).store) := by
  induction ps with
  | nil =>
    intro st d hd
    rw [List.foldl_nil, List.foldl_nil, hd]
  | cons p ps ih =>
    intro st d hd
    rw [List.foldl_cons, List.foldl_cons]
    rw [show processPageCommit (st, d) p =
      (processPage st p, (processPage st p).store) from rfl]
    rw [ih (processPage st p) _ rfl]

theorem synchronize_run_raises (store : List Case) (ps : List CaseQueryResponseDTO) :
    synchronize_run store ps true =
      Except.error ((ps.foldl processPage (initSync store)).store) := by
  rw [synchronize_run, foldl_processPageCommit ps (initSync store) store rfl]
  rfl

theorem synchronize_run_ok (store : List Case) (ps : List CaseQueryResponseDTO) :
    synchronize_run store ps false =
      Except.ok (synchronize_with_intempus store ps) := by
  rw [synchronize_run, foldl_processPageCommit ps (initSync store) store rfl,
    synchronize_with_intempus]
  rfl

/-! ### Emptiness lemmas -/

theorem removeAll_self (s : List Case) : removeAll s s = [] := by
  have h : ∀ x, x ∉ idsOf (removeAll s s) := by
    intro x hx
    rw [mem_ids_removeAll] at hx
    exact hx.2 hx.1
  cases hres : removeAll s s with
  | nil => rfl
  | cons c cs =>
    exfalso
    apply h c.id
    rw [hres]
    exact List.mem_map_of_mem Case.id (List.mem_cons_self c cs)

/-- One empty final page wipes the whole table: the cursor opens, the merge
consumes nothing, and the trailing cleanup deletes every row. -/
theorem sync_single_empty_page (store : List Case) (meta : Meta) :
    synchronize_with_intempus store [CaseQueryResponseDTO.mk meta []] = [] := by
  rw [sync_eq_syncCore store _ (by simp)]
  rw [show ([CaseQueryResponseDTO.mk meta []].flatMap CaseQueryResponseDTO.objects) =
    ([] : List CaseResponseDTO) from by simp]
  rw [syncCore_nil, removeAll_self]

/-! ### Single-record delete -/

theorem delete_case_fst (store : List Case) (i : Nat) :
    (delete_case store i).1 = true ↔ i ∈ idsOf store := by
  unfold delete_case
  cases hg : getCase store i with
  | some c =>
    show (true = true) ↔ i ∈ idsOf store
    simp only [true_iff]
    obtain ⟨hm, hid⟩ := getCase_some hg
    exact hid ▸ List.mem_map_of_mem Case.id hm
  | none =>
    show (false = true) ↔ i ∈ idsOf store
    simp only [Bool.false_eq_true, false_iff]
    exact (getCase_eq_none_iff store i).mp hg

theorem delete_case_snd (store : List Case) (i : Nat) :
    (delete_case store i).2 =
      (if i ∈ idsOf store then removeCase store i else store) := by
  unfold delete_case
  cases hg : getCase store i with
  | some c =>
    show removeCase store i = _
    obtain ⟨hm, hid⟩ := getCase_some hg
    rw [if_pos (hid ▸ List.mem_map_of_mem Case.id hm)]
  | none =>
    show store = _
    rw [if_neg ((getCase_eq_none_iff store i).mp hg)]

/-! ### The claims -/

/-- C1 (counterexample): as stated, convergence is claimed for every finite
sequence of remote pages, including the empty sequence; but when the page
iterator yields no page at all, `synchronize_with_intempus` leaves the local
store untouched, so a nonempty starting store keeps identifiers (here id 1)
that appear in no remote page. -/
theorem claim_C1_counterexample :
    synchronize_with_intempus [⟨1, 0, "b"⟩] [] = [⟨1, 0, "b"⟩] ∧
    (1 : Nat) ∈ idsOf (synchronize_with_intempus [⟨1, 0, "b"⟩] []) ∧
    (1 : Nat) ∉ (([] : List CaseQueryResponseDTO).flatMap
      CaseQueryResponseDTO.objects).map CaseResponseDTO.id := by
  refine ⟨rfl, ?_, by simp⟩
  show (1 : Nat) ∈ idsOf [(⟨1, 0, "b"⟩ : Case)]
  decide

/-- C1 (amended: at least one page is yielded): for every nonempty finite
sequence of remote pages whose concatenated records are strictly ascending by
id, and every id-sorted local starting store, after one call to
`synchronize_with_intempus` the set of locally stored identifiers equals the
set of identifiers appearing across all remote pages. -/
theorem claim_C1 (store : List Case) (ps : List CaseQueryResponseDTO)
    (hne : ps ≠ []) (hs : SortedById store)
    (_hr : RemoteSorted (ps.flatMap CaseQueryResponseDTO.objects)) (x : Nat) :
    x ∈ idsOf (synchronize_with_intempus store ps) ↔
      x ∈ (ps.flatMap CaseQueryResponseDTO.objects).map CaseResponseDTO.id := by
  rw [sync_eq_syncCore store ps hne,
    syncCore_mem store _ store x hs (fun c hc => List.mem_map_of_mem Case.id hc)]
  constructor
  · rintro (⟨h1, h2⟩ | hmem)
    · exact absurd h1 h2
    · exact hmem
  · intro hmem
    exact Or.inr hmem

theorem claim_C1_witness :
    ([(⟨⟨10, none, some 0, none, 2⟩, [⟨1, 5, "a"⟩, ⟨2, 7, "b"⟩]⟩ : CaseQueryResponseDTO)] ≠
      ([] : List CaseQueryResponseDTO)) ∧
    SortedById [⟨2, 3, "old"⟩] ∧
    RemoteSorted (([(⟨⟨10, none, some 0, none, 2⟩,
      [⟨1, 5, "a"⟩, ⟨2, 7, "b"⟩]⟩ : CaseQueryResponseDTO)]).flatMap
        CaseQueryResponseDTO.objects) ∧
    ((1 : Nat) ∈ idsOf (synchronize_with_intempus [⟨2, 3, "old"⟩]
        [⟨⟨10, none, some 0, none, 2⟩, [⟨1, 5, "a"⟩, ⟨2, 7, "b"⟩]⟩]) ↔
      (1 : Nat) ∈ (([(⟨⟨10, none, some 0, none, 2⟩,
        [⟨1, 5, "a"⟩, ⟨2, 7, "b"⟩]⟩ : CaseQueryResponseDTO)]).flatMap
          CaseQueryResponseDTO.objects).map CaseResponseDTO.id) :=
  ⟨by decide, by decide, by decide,
    claim_C1 [⟨2, 3, "old"⟩] [⟨⟨10, none, some 0, none, 2⟩, [⟨1, 5, "a"⟩, ⟨2, 7, "b"⟩]⟩]
      (by decide) (by decide) (by decide) 1⟩

/-- C2: for an identifier present both in the pre-pass local store (row `l`)
and in the remote pages (record `r`), after one pass the stored row is the
merge of `l` and `r`: its version is `max` of the two, and when the remote
version is at most the local one the stored row (version and blob) is
byte-for-byte the pre-pass row. -/
theorem claim_C2 (store : List Case) (ps : List CaseQueryResponseDTO)
    (x : Nat) (l : Case) (r : CaseResponseDTO)
    (hs : SortedById store)
    (hr : RemoteSorted (ps.flatMap CaseQueryResponseDTO.objects))
    (hl : getCase store x = some l)
    (hrx : findRemote (ps.flatMap CaseQueryResponseDTO.objects) x = some r) :
    getCase (synchronize_with_intempus store ps) x = some (mergedCase l r) ∧
    (mergedCase l r).logical_timestamp =
      max l.logical_timestamp r.logical_timestamp ∧
    (r.logical_timestamp ≤ l.logical_timestamp → mergedCase l r = l) := by
  have hne : ps ≠ [] := by
    intro he
    subst he
    rw [List.flatMap_nil, findRemote] at hrx
    exact Option.noConfusion hrx
  refine ⟨?_, ?_, fun hle => mergedCase_of_le hle⟩
  · rw [sync_eq_syncCore store ps hne]
    exact syncCore_content_some _ _ _ _ _ _ hr hs
      (fun c hc => getCase_self_of_sorted hs hc) hrx hl
  · rw [mergedCase]
    by_cases hlt : r.logical_timestamp > l.logical_timestamp
    · rw [if_pos hlt]
      show r.logical_timestamp = max l.logical_timestamp r.logical_timestamp
      exact (max_eq_right (le_of_lt hlt)).symm
    · rw [if_neg hlt]
      exact (max_eq_left (le_of_not_lt hlt)).symm

theorem claim_C2_witness :
    SortedById [⟨1, 10, "loc"⟩] ∧
    RemoteSorted (([(⟨⟨10, none, some 0, none, 1⟩,
      [⟨1, 4, "rem"⟩]⟩ : CaseQueryResponseDTO)]).flatMap CaseQueryResponseDTO.objects) ∧
    getCase [⟨1, 10, "loc"⟩] 1 = some ⟨1, 10, "loc"⟩ ∧
    findRemote (([(⟨⟨10, none, some 0, none, 1⟩,
      [⟨1, 4, "rem"⟩]⟩ : CaseQueryResponseDTO)]).flatMap CaseQueryResponseDTO.objects) 1 =
      some ⟨1, 4, "rem"⟩ ∧
    (getCase (synchronize_with_intempus [⟨1, 10, "loc"⟩]
        [⟨⟨10, none, some 0, none, 1⟩, [⟨1, 4, "rem"⟩]⟩]) 1 =
        some (mergedCase ⟨1, 10, "loc"⟩ ⟨1, 4, "rem"⟩) ∧
      (mergedCase ⟨1, 10, "loc"⟩ ⟨1, 4, "rem"⟩).logical_timestamp =
        max (10 : Int) 4 ∧
      ((4 : Int) ≤ 10 → mergedCase ⟨1, 10, "loc"⟩ ⟨1, 4, "rem"⟩ = ⟨1, 10, "loc"⟩)) :=
  ⟨by decide, by decide, by decide, by decide,
    claim_C2 [⟨1, 10, "loc"⟩] [⟨⟨10, none, some 0, none, 1⟩, [⟨1, 4, "rem"⟩]⟩]
      1 ⟨1, 10, "loc"⟩ ⟨1, 4, "rem"⟩ (by decide) (by decide) (by decide) (by decide)⟩

/-- C3: running `synchronize_with_intempus` twice in succession with the same
unchanged sequence of remote pages leaves the local store after the second
pass byte-identical to its state after the first pass. -/
theorem claim_C3 (store : List Case) (ps : List CaseQueryResponseDTO)
    (hs : SortedById store)
    (hr : RemoteSorted (ps.flatMap CaseQueryResponseDTO.objects)) :
    synchronize_with_intempus (synchronize_with_intempus store ps) ps =
      synchronize_with_intempus store ps := by
  by_cases hne : ps = []
  · subst hne
    rfl
  · rw [sync_eq_syncCore store ps hne, syncCore_eq_resultSpec store _ hs hr,
      sync_eq_syncCore _ ps hne,
      syncCore_eq_resultSpec _ _ (sorted_resultSpec store hr) hr,
      resultSpec_fixpoint store _ hr]

theorem claim_C3_witness :
    SortedById [⟨1, 3, "x"⟩] ∧
    RemoteSorted (([(⟨⟨10, none, some 0, none, 2⟩,
      [⟨1, 9, "n"⟩, ⟨2, 1, "m"⟩]⟩ : CaseQueryResponseDTO)]).flatMap
        CaseQueryResponseDTO.objects) ∧
    synchronize_with_intempus
        (synchronize_with_intempus [⟨1, 3, "x"⟩]
          [⟨⟨10, none, some 0, none, 2⟩, [⟨1, 9, "n"⟩, ⟨2, 1, "m"⟩]⟩])
        [⟨⟨10, none, some 0, none, 2⟩, [⟨1, 9, "n"⟩, ⟨2, 1, "m"⟩]⟩] =
      synchronize_with_intempus [⟨1, 3, "x"⟩]
        [⟨⟨10, none, some 0, none, 2⟩, [⟨1, 9, "n"⟩, ⟨2, 1, "m"⟩]⟩] :=
  ⟨by decide, by decide,
    claim_C3 [⟨1, 3, "x"⟩] [⟨⟨10, none, some 0, none, 2⟩, [⟨1, 9, "n"⟩, ⟨2, 1, "m"⟩]⟩]
      (by decide) (by decide)⟩

/-- C4: delivering a given remote record sequence as one single page or split
into any nonempty sequence of pages (order preserved) yields the same final
local store, for every starting store. -/
theorem claim_C4 (store : List Case) (ps : List CaseQueryResponseDTO)
    (rs : List CaseResponseDTO) (meta : Meta)
    (hne : ps ≠ [])
    (hflat : ps.flatMap CaseQueryResponseDTO.objects = rs) :
    synchronize_with_intempus store ps =
      synchronize_with_intempus store [⟨meta, rs⟩] := by
  have hsingle : ([(⟨meta, rs⟩ : CaseQueryResponseDTO)]).flatMap
      CaseQueryResponseDTO.objects = rs := by simp
  rw [sync_eq_syncCore store ps hne, sync_eq_syncCore store _ (by simp), hflat, hsingle]

theorem claim_C4_witness :
    ([(⟨⟨1, some "/next", some 0, none, 2⟩, [⟨1, 1, "a"⟩]⟩ : CaseQueryResponseDTO),
      ⟨⟨1, none, some 1, none, 2⟩, [⟨2, 1, "b"⟩]⟩] ≠ ([] : List CaseQueryResponseDTO)) ∧
    ([(⟨⟨1, some "/next", some 0, none, 2⟩, [⟨1, 1, "a"⟩]⟩ : CaseQueryResponseDTO),
      ⟨⟨1, none, some 1, none, 2⟩, [⟨2, 1, "b"⟩]⟩].flatMap CaseQueryResponseDTO.objects =
      [⟨1, 1, "a"⟩, ⟨2, 1, "b"⟩]) ∧
    synchronize_with_intempus []
        [⟨⟨1, some "/next", some 0, none, 2⟩, [⟨1, 1, "a"⟩]⟩,
          ⟨⟨1, none, some 1, none, 2⟩, [⟨2, 1, "b"⟩]⟩] =
      synchronize_with_intempus []
        [⟨⟨2, none, some 0, none, 2⟩, [⟨1, 1, "a"⟩, ⟨2, 1, "b"⟩]⟩] :=
  ⟨by decide, by decide,
    claim_C4 [] [⟨⟨1, some "/next", some 0, none, 2⟩, [⟨1, 1, "a"⟩]⟩,
        ⟨⟨1, none, some 1, none, 2⟩, [⟨2, 1, "b"⟩]⟩]
      [⟨1, 1, "a"⟩, ⟨2, 1, "b"⟩] ⟨2, none, some 0, none, 2⟩ (by decide) (by decide)⟩

/-- C5 (counterexample): the claim says the watermark is raised only on the
last page; but after processing a non-empty page whose metadata announces a
further page (`meta.next` is set), the watermark still moves from 0 to 2 —
the code never consults the continuation flag at the watermark update. -/
theorem claim_C5_counterexample :
    ((⟨⟨1000, some "/api/v1/case/?limit=1000&offset=1000", some 0, none, 1001⟩,
      [⟨1, 5, "x"⟩]⟩ : CaseQueryResponseDTO)).meta.next ≠ none ∧
    (initSync []).min_local_id = 0 ∧
    (processPage (initSync [])
      ⟨⟨1000, some "/api/v1/case/?limit=1000&offset=1000", some 0, none, 1001⟩,
        [⟨1, 5, "x"⟩]⟩).min_local_id = 2 := by
  refine ⟨by simp, rfl, rfl⟩

/-- C5 (amended): the watermark is raised after every page with at least one
record — to the maximum of its current value and one past the highest id on
the page — regardless of whether further pages follow; after an empty page it
is left at its previous value. -/
theorem claim_C5 (st : SyncState) (p : CaseQueryResponseDTO) :
    (p.objects ≠ [] → (processPage st p).min_local_id =
      Nat.max st.min_local_id (maxPageId p.objects + 1)) ∧
    (p.objects = [] → (processPage st p).min_local_id = st.min_local_id) := by
  obtain ⟨s, lr, m⟩ := st
  constructor
  · intro hne
    cases lr with
    | none =>
      rw [processPage_none]
      show (if p.objects.isEmpty then m else Nat.max m (maxPageId p.objects + 1)) = _
      rw [if_neg (by simp [hne])]
    | some c =>
      rw [processPage_some]
      show (if p.objects.isEmpty then m else Nat.max m (maxPageId p.objects + 1)) = _
      rw [if_neg (by simp [hne])]
  · intro he
    cases lr with
    | none =>
      rw [processPage_none]
      show (if p.objects.isEmpty then m else Nat.max m (maxPageId p.objects + 1)) = _
      rw [if_pos (by simp [he])]
    | some c =>
      rw [processPage_some]
      show (if p.objects.isEmpty then m else Nat.max m (maxPageId p.objects + 1)) = _
      rw [if_pos (by simp [he])]

theorem claim_C5_witness :
    (((⟨⟨5, some "/next", some 0, none, 9⟩, [⟨1, 7, "w"⟩]⟩ :
        CaseQueryResponseDTO)).objects ≠ []) ∧
    (processPage ⟨[], none, 5⟩
        ⟨⟨5, some "/next", some 0, none, 9⟩, [⟨1, 7, "w"⟩]⟩).min_local_id =
      Nat.max 5 (maxPageId [⟨1, 7, "w"⟩] + 1) :=
  ⟨by decide,
    (claim_C5 ⟨[], none, 5⟩ ⟨⟨5, some "/next", some 0, none, 9⟩, [⟨1, 7, "w"⟩]⟩).1
      (by decide)⟩

/-- C6: the pass commits once after each page, so when the page iterator
raises after yielding some pages, the error propagates (`Except.error`) and
the durable store holds exactly the work of all yielded pages — nothing
pending is lost and nothing from an unfetched page is applied; a run whose
iterator ends normally returns the fully reconciled committed store. -/
theorem claim_C6 (store : List Case) (ps : List CaseQueryResponseDTO) :
    synchronize_run store ps true =
      Except.error ((ps.foldl processPage (initSync store)).store) ∧
    synchronize_run store ps false =
      Except.ok (synchronize_with_intempus store ps) :=
  ⟨synchronize_run_raises store ps, synchronize_run_ok store ps⟩

/-- C7 (counterexample): a page fetch that fails with an upstream 500 makes
`get_cases` raise a `RuntimeError` (carrying the `ErrorDetail`), rather than
communicate the `ErrorDetail` as a value: the claim that a fetch failure is
never thrown as an exception is false for `get_cases`. -/
theorem claim_C7_counterexample :
    get_cases_step (HttpOutcome.statusError 500 "upstream exploded") =
      GetCasesStep.raised ⟨"HTTP 500", 500, "Upstream API returned status 500",
        "1.0.0", [⟨"upstream exploded"⟩]⟩ := by
  decide

/-- C7 (amended): `_request` surfaces every transport and upstream-status
failure as a structured `ErrorDetail` value and never lets the exception
escape; `get_cases`, however, converts such an `ErrorDetail` into a raised
`RuntimeError` instead of yielding or returning it. -/
theorem claim_C7 (s : Nat) (t m : String) :
    @request CaseQueryResponseDTO (HttpOutcome.statusError s t) =
      Sum.inr ⟨titleForStatus s, s, "Upstream API returned status " ++ toString s,
        "1.0.0", [⟨t⟩]⟩ ∧
    @request CaseQueryResponseDTO (HttpOutcome.networkError m) =
      Sum.inr ⟨"Network Error", 503, m, "1.0.0",
        [⟨"Could not reach upstream API"⟩]⟩ ∧
    get_cases_step (HttpOutcome.statusError s t) =
      GetCasesStep.raised ⟨titleForStatus s, s,
        "Upstream API returned status " ++ toString s, "1.0.0", [⟨t⟩]⟩ ∧
    get_cases_step (HttpOutcome.networkError m) =
      GetCasesStep.raised ⟨"Network Error", 503, m, "1.0.0",
        [⟨"Could not reach upstream API"⟩]⟩ :=
  ⟨rfl, rfl, rfl, rfl⟩

/-- C8: for the single-record delete route, a successful remote delete
deletes the record locally; a remote 404 still deletes it locally; any other
remote failure leaves the local store unchanged and raises a structured error
carrying the original status code and messages. -/
theorem claim_C8 (store : List Case) (i : Nat) (s : Nat) (t m : String) :
    route_delete (HttpOutcome.success ()) store i =
      ((if i ∈ idsOf store then removeCase store i else store), none) ∧
    route_delete (HttpOutcome.statusError 404 t) store i =
      ((if i ∈ idsOf store then removeCase store i else store), none) ∧
    (s ≠ 404 →
      route_delete (HttpOutcome.statusError s t) store i =
        (store, some ⟨s, ⟨titleForStatus s,
          "Upstream API returned status " ++ toString s, "1.0.0", [t]⟩⟩)) ∧
    route_delete (HttpOutcome.networkError m) store i =
      (store, some ⟨503, ⟨"Network Error", m, "1.0.0",
        ["Could not reach upstream API"]⟩⟩) := by
  refine ⟨?_, ?_, ?_, ?_⟩
  · rw [show route_delete (HttpOutcome.success ()) store i =
      ((delete_case store i).2, none) from rfl, delete_case_snd]
  · rw [show route_delete (HttpOutcome.statusError 404 t) store i =
      ((delete_case store i).2, none) from rfl, delete_case_snd]
  · intro hs
    simp only [route_delete, client_delete_case, request]
    rw [if_neg hs]
    rfl
  · rfl

theorem claim_C8_witness :
    ((500 : Nat) ≠ 404) ∧
    route_delete (HttpOutcome.statusError 500 "nope") [⟨3, 1, "z"⟩] 3 =
      ([⟨3, 1, "z"⟩], some ⟨500, ⟨titleForStatus 500,
        "Upstream API returned status " ++ toString 500, "1.0.0", ["nope"]⟩⟩) :=
  ⟨by decide, (claim_C8 [⟨3, 1, "z"⟩] 3 500 "nope" "unused").2.2.1 (by decide)⟩

/-- C9: when the page iterator yields no pages at all, the local store is
left completely unchanged — the local cursor is never opened and the
committed state is the starting store — in contrast to a single empty final
page, which deletes every local record. -/
theorem claim_C9 (store : List Case) (meta : Meta) :
    synchronize_with_intempus store [] = store ∧
    (([] : List CaseQueryResponseDTO).foldl processPage (initSync store)).local_rem =
      none ∧
    synchronize_run store [] true = Except.error store ∧
    synchronize_with_intempus store [CaseQueryResponseDTO.mk meta []] = [] := by
  refine ⟨rfl, rfl, ?_, sync_single_empty_page store meta⟩
  rw [synchronize_run_raises]
  rfl

/-- C10: `delete_case` returns `True` exactly when a case with the given id
exists in the local store at call time; on `True` the record is removed (and
committed), on `False` the store is unchanged. -/
theorem claim_C10 (store : List Case) (i : Nat) :
    ((delete_case store i).1 = true ↔ i ∈ idsOf store) ∧
    (delete_case store i).2 =
      (if i ∈ idsOf store then removeCase store i else store) :=
  ⟨delete_case_fst store i, delete_case_snd store i⟩

end Intempus
